import Mathlib

/-!
Shallow embedding of the grid-world MDP solver from
`src/Rust/002_Grid_World/grid-world/src/world.rs` (the `World` solver used by
`main.rs`) and of the older solver variant embedded in
`src/Rust/002_Grid_World/grid-world/src/game.rs` (the `Game` struct with a
hard-coded 4x3 world).

Modelling conventions:
* `f32` values (rewards, probabilities, state values) are modelled as `ℚ`.
  All arithmetic performed by the solver on the claims below is structural
  (copying a stored reward, `(1-noise)/2`, comparisons), so exact rationals
  track the source faithfully for those claims.
* `Vec<T>` becomes `List T`; `Vec::get` becomes `List.get?`; writes through
  `Vec::get_mut` (which silently do nothing when the index is out of range)
  become `List.set` (which is likewise the identity out of range).
* Direct `v[i]` indexing in Rust (which panics when out of range) becomes
  `List.getD` with a default; every caller in the source only indexes vectors
  of length `width * height`, and the theorems below carry the corresponding
  bounds, so the default is never observable there.
* The Rust loops `for y in 0..height { for x in 0..width { ... index = y*width+x } }`
  visit exactly the indices `0, 1, ..., width*height - 1` in order, writing each
  `result[index]` once; they are rendered as `(List.range (width*height)).map`
  with `x = i % width`, `y = i / width`.
* The non-terminating `loop { ... }` constructs become fuel-indexed recursions
  returning `Option`: `none` models "did not terminate within `fuel` sweeps".
* `usize` subtraction: the guards `state.y < self.height - 1` use `Nat`
  truncated subtraction. This differs from Rust (release-mode wrap-around)
  only when `height = 0`/`width = 0`, where the guarded arm in Rust falls
  through to the same `return state` because `valid_position` is false on an
  empty board; the observable behaviour agrees.
-/

namespace GridWorld

/-- `enum Direction { Up, Down, Left, Right }` from `world.rs`
(`game.rs` declares the identical enum). -/
inductive Direction where
  | Up
  | Down
  | Left
  | Right
deriving DecidableEq, Repr

/-- `const DIRECTIONS: [Direction; 4] = [Up, Right, Down, Left]` from `world.rs`. -/
def DIRECTIONS : List Direction := [.Up, .Right, .Down, .Left]

/-- `enum Action { None, Move(Direction), Exit }` from `world.rs`. -/
inductive Action where
  | None
  | Move (d : Direction)
  | Exit
deriving DecidableEq, Repr

/-- `struct State { x: usize, y: usize }` from `world.rs`. -/
structure State where
  x : Nat
  y : Nat
deriving DecidableEq, Repr

/-- `struct World` from `world.rs`: dimensions, a board marking walls
(`1`) vs open (`0`) cells, and per-cell optional exit rewards. -/
structure World where
  width : Nat
  height : Nat
  board : List Nat
  exits : List (Option ℚ)
deriving DecidableEq, Repr

/-- `World::new(width, height)`. -/
def World.new (width height : Nat) : World :=
  { width := width
    height := height
    board := List.replicate (width * height) 0
    exits := List.replicate (width * height) none }

/-- `World::area`. -/
def World.area (w : World) : Nat :=
  w.width * w.height

/-- `World::add_wall`: `board.get_mut(y*width+x)` writes 1 when the flat
index is in range and silently does nothing otherwise (`List.set` has the
same out-of-range behaviour). -/
def World.add_wall (w : World) (x y : Nat) : World :=
  { w with board := w.board.set (y * w.width + x) 1 }

/-- `World::add_exit`. -/
def World.add_exit (w : World) (x y : Nat) (reward : ℚ) : World :=
  { w with exits := w.exits.set (y * w.width + x) (some reward) }

/-- `World::valid_position`: true iff `board.get(y*width+x)` is `Some(0)`. -/
def World.valid_position (w : World) (state : State) : Bool :=
  match w.board.get? (state.y * w.width + state.x) with
  | some target => target == 0
  | none => false

/-- `World::can_exit`: true iff `exits.get(y*width+x)` is `Some(Some(_))`. -/
def World.can_exit (w : World) (state : State) : Bool :=
  match w.exits.get? (state.y * w.width + state.x) with
  | some target => target.isSome
  | none => false

/-- `World::get_moves`: the intended direction followed by the two
directions orthogonal to it. -/
def World.get_moves (_w : World) (direction : Direction) : List Direction :=
  match direction with
  | .Up | .Down => [direction, .Left, .Right]
  | .Right | .Left => [direction, .Up, .Down]

/-- `World::transition`. For `Exit` the single sure outcome iff the cell has
an exit; for `Move(d)` the intended direction with probability `noise` and
each remaining entry of `get_moves` with probability
`(1 - noise) / (moves.len() - 1)`; for `None` no transition. -/
def World.transition (w : World) (state : State) (action : Action) (noise : ℚ) :
    Option (List (ℚ × Action)) :=
  match action with
  | .Exit =>
    match w.exits.get? (state.y * w.width + state.x) with
    | some target => if target.isSome then some [(1, Action.Exit)] else none
    | none => none
  | .Move direction =>
    let moves := w.get_moves direction
    let remainder := (1 - noise) / ((moves.length : ℚ) - 1)
    some ((noise, Action.Move (moves.getD 0 direction)) ::
      (moves.drop 1).map fun m => (remainder, Action.Move m))
  | .None => none

/-- `World::reward`: the stored exit reward for `Exit` from an exit cell,
otherwise 0. -/
def World.reward (w : World) (state : State) (action : Action) : ℚ :=
  match action with
  | .Exit =>
    match w.exits.get? (state.y * w.width + state.x) with
    | some (some reward) => reward
    | _ => 0
  | .Move _ => 0
  | .None => 0

/-- `World::move_to`: step to the neighbouring cell when the source guard
holds and the destination is a valid position, else stay in place. -/
def World.move_to (w : World) (state : State) (direction : Direction) : State :=
  match direction with
  | .Up =>
    if state.y > 0 then
      if w.valid_position ⟨state.x, state.y - 1⟩ then ⟨state.x, state.y - 1⟩ else state
    else state
  | .Down =>
    if state.y < w.height - 1 then
      if w.valid_position ⟨state.x, state.y + 1⟩ then ⟨state.x, state.y + 1⟩ else state
    else state
  | .Left =>
    if state.x > 0 then
      if w.valid_position ⟨state.x - 1, state.y⟩ then ⟨state.x - 1, state.y⟩ else state
    else state
  | .Right =>
    if state.x < w.width - 1 then
      if w.valid_position ⟨state.x + 1, state.y⟩ then ⟨state.x + 1, state.y⟩ else state
    else state

/-- `World::value`: the shared expectation sum. An `Exit` action returns the
immediate reward; a `Move` action folds
`p * (reward + discount * values[target])` over the transition outcomes
(an absent transition leaves the accumulator at 0); `None` contributes 0. -/
def World.value (w : World) (state : State) (action : Action)
    (discount noise : ℚ) (values : List ℚ) : ℚ :=
  match action with
  | .Exit => w.reward state .Exit
  | .Move _ =>
    match w.transition state action noise with
    | some actions =>
      actions.foldl
        (fun accumulation entry =>
          match entry.2 with
          | .Move direction =>
            let target := w.move_to state direction
            accumulation +
              entry.1 * (w.reward state entry.2 +
                discount * values.getD (target.y * w.width + target.x) 0)
          | _ => accumulation)
        0
    | none => 0
  | .None => 0

/-- A Q-value row models `[f32; 4]` (one entry per `DIRECTIONS` slot). -/
abbrev QRow := List ℚ

/-- `[0.0; 4]`. -/
def qZero : QRow := List.replicate 4 0

/-- The `new_values` array: `value` of `Move(direction)` for each entry of
`DIRECTIONS`, in order. Shared by `value_bellman_update` and
`policy_improvement` in the source. -/
def World.qRowFor (w : World) (state : State) (discount noise : ℚ)
    (values : List ℚ) : QRow :=
  DIRECTIONS.map fun direction => w.value state (.Move direction) discount noise values

/-- `let mut max = row[0]; for i in 1..row.len() { if row[i] > max { max = row[i] } }`. -/
def runMax (row : List ℚ) : ℚ :=
  (row.drop 1).foldl (fun m v => if v > m then v else m) (row.getD 0 0)

/-- `let mut target = 0; for i in 1..row.len() { if row[i] > row[target] { target = i } }`:
first index attaining the strict running maximum. -/
def argMaxIdx (row : List ℚ) : Nat :=
  ((List.range row.length).drop 1).foldl
    (fun target i => if row.getD i 0 > row.getD target 0 then i else target) 0

/-- `World::generate_policy`: `None` on invalid cells, `Exit` on exit cells,
else the arg-max direction of the cell's Q-row. -/
def World.generate_policy (w : World) (q_values : List QRow) : List Action :=
  (List.range w.area).map fun index =>
    let state : State := ⟨index % w.width, index / w.width⟩
    if !w.valid_position state then .None
    else if w.can_exit state then .Exit
    else .Move (DIRECTIONS.getD (argMaxIdx (q_values.getD index qZero)) .Up)

/-- `World::generate_random_policy`: despite the name, deterministic —
`None` on invalid cells, `Exit` on exit cells, `Move(Up)` elsewhere. -/
def World.generate_random_policy (w : World) : List Action :=
  (List.range w.area).map fun index =>
    let state : State := ⟨index % w.width, index / w.width⟩
    if !w.valid_position state then .None
    else if w.can_exit state then .Exit
    else .Move .Up

/-- `World::value_bellman_update`: one Bellman optimality sweep. Returns the
new value array together with the updated Q-value array (the source mutates
`q_values` in place; rows of invalid/exit cells are not written and keep
their previous contents). -/
def World.value_bellman_update (w : World) (discount noise : ℚ)
    (values : List ℚ) (q_values : List QRow) : List ℚ × List QRow :=
  ((List.range w.area).map fun index =>
      let state : State := ⟨index % w.width, index / w.width⟩
      if !w.valid_position state then 0
      else if w.can_exit state then w.reward state .Exit
      else runMax (w.qRowFor state discount noise values),
   (List.range w.area).map fun index =>
      let state : State := ⟨index % w.width, index / w.width⟩
      if !w.valid_position state then q_values.getD index qZero
      else if w.can_exit state then q_values.getD index qZero
      else w.qRowFor state discount noise values)

/-- `World::policy_bellman_update`: one Bellman expectation sweep under the
fixed `policy` (no special-casing, no Q-value writes in the source). -/
def World.policy_bellman_update (w : World) (discount noise : ℚ)
    (policy : List Action) (values : List ℚ) : List ℚ :=
  (List.range w.area).map fun index =>
    w.value ⟨index % w.width, index / w.width⟩ (policy.getD index .None)
      discount noise values

/-- The stability scan at the end of `World::policy_improvement`:
`stable` becomes true iff the index loop reaches `policy.len() - 1` without
finding a mismatch, i.e. iff the policy is nonempty and pointwise unchanged. -/
def policyStable (result policy : List Action) : Bool :=
  decide (0 < policy.length ∧
    ∀ i < policy.length, result.getD i .None = policy.getD i .None)

/-- `World::policy_improvement`: `Exit`/`None` entries are kept; `Move`
entries are replaced by the arg-max direction of the freshly computed Q-row
(which is also written into `q_values`). Returns
(new policy, stable flag, new q_values). -/
def World.policy_improvement (w : World) (discount noise : ℚ)
    (policy : List Action) (values : List ℚ) (q_values : List QRow) :
    List Action × Bool × List QRow :=
  let result := (List.range w.area).map fun index =>
    let state : State := ⟨index % w.width, index / w.width⟩
    match policy.getD index .None with
    | .Move _ =>
      Action.Move (DIRECTIONS.getD (argMaxIdx (w.qRowFor state discount noise values)) .Up)
    | other => other
  let q_values' := (List.range w.area).map fun index =>
    let state : State := ⟨index % w.width, index / w.width⟩
    match policy.getD index .None with
    | .Move _ => w.qRowFor state discount noise values
    | _ => q_values.getD index qZero
  (result, policyStable result policy, q_values')

/-- `f32::MIN`, the smallest finite `f32`, exactly:
`-(2 - 2^-23) * 2^127 = -(2^128 - 2^104)`, written as a literal so that the
kernel can evaluate it. -/
def f32MIN : ℚ := -340282346638528859811704183484516925440

/-- `f32::MAX = (2 - 2^-23) * 2^127 = 2^128 - 2^104`, exactly. -/
def f32MAX : ℚ := 340282346638528859811704183484516925440

/-- The per-sweep delta reduction shared verbatim by `value_iteration` and
`policy_evaluation`:
`deltas = temp.iter().enumerate().map(|(i,v)| *v - values[i])` followed by
`max_delta = f32::MIN; for delta in deltas { if delta > max_delta { max_delta = delta } }`. -/
def foldDelta (temp old : List ℚ) : ℚ :=
  (List.zipWith (fun a b => a - b) temp old).foldl
    (fun max_delta delta => if delta > max_delta then delta else max_delta) f32MIN

/-- The convergence loop of `World::value_iteration`, fuel-indexed.
`none` models not terminating within `fuel` sweeps; on `break` it returns
the final `(values, q_values)`. -/
def viLoop (w : World) (discount noise epsilon : ℚ) :
    Nat → List ℚ → List QRow → Nat → Option (List ℚ × List QRow)
  | 0, _, _, _ => none
  | fuel + 1, values, q_values, iterations =>
    let tq := w.value_bellman_update discount noise values q_values
    let max_delta := foldDelta tq.1 values
    if |max_delta| < epsilon ∧ iterations + 1 > 1 then some tq
    else viLoop w discount noise epsilon fuel tq.1 tq.2 (iterations + 1)

/-- `World::value_iteration`: zero-initialised values and Q-values, loop to
convergence, then `generate_policy` on the final Q-values. Returns
(policy, values, q_values). -/
def World.value_iteration (w : World) (discount noise epsilon : ℚ) (fuel : Nat) :
    Option (List Action × List ℚ × List QRow) :=
  (viLoop w discount noise epsilon fuel
      (List.replicate w.area 0) (List.replicate w.area qZero) 0).map
    fun tq => (w.generate_policy tq.2, tq.1, tq.2)

/-- The convergence loop of `World::policy_evaluation`, fuel-indexed. -/
def peLoop (w : World) (discount noise epsilon : ℚ) (policy : List Action) :
    Nat → List ℚ → Nat → Option (List ℚ)
  | 0, _, _ => none
  | fuel + 1, result, iterations =>
    let temp := w.policy_bellman_update discount noise policy result
    let max_delta := foldDelta temp result
    if |max_delta| < epsilon ∧ iterations + 1 > 1 then some temp
    else peLoop w discount noise epsilon policy fuel temp (iterations + 1)

/-- `World::policy_evaluation`: starts from a clone of the incoming values. -/
def World.policy_evaluation (w : World) (discount noise epsilon : ℚ)
    (policy : List Action) (values : List ℚ) (fuel : Nat) : Option (List ℚ) :=
  peLoop w discount noise epsilon policy fuel values 0

/-- The outer loop of `World::policy_iteration`, fuel-indexed on the number
of improvement rounds (each evaluation gets `evalFuel` sweeps). -/
def piLoop (w : World) (discount noise epsilon : ℚ) (evalFuel : Nat) :
    Nat → List Action → List ℚ → List QRow →
    Option (List Action × List ℚ × List QRow)
  | 0, _, _, _ => none
  | fuel + 1, policy, values, q_values =>
    match w.policy_evaluation discount noise epsilon policy values evalFuel with
    | none => none
    | some values' =>
      let imp := w.policy_improvement discount noise policy values' q_values
      if imp.2.1 then some (imp.1, values', imp.2.2)
      else piLoop w discount noise epsilon evalFuel fuel imp.1 values' imp.2.2

/-- `World::policy_iteration`: starts from `generate_random_policy`,
zero values and zero Q-values. Returns (policy, values, q_values). -/
def World.policy_iteration (w : World) (discount noise epsilon : ℚ)
    (evalFuel fuel : Nat) : Option (List Action × List ℚ × List QRow) :=
  piLoop w discount noise epsilon evalFuel fuel
    (w.generate_random_policy) (List.replicate w.area 0) (List.replicate w.area qZero)

/-! ### The older solver variant from `game.rs`

`game.rs` declares its own `State` and `Direction` with literally the same
shape as `world.rs` (`State { x, y }`, `Direction { Up, Down, Left, Right }`),
so those types are reused. Its `World` struct carries the value/Q-value
buffers; the `Camera2D` field and the `k` CLI parameter of `Game` are
rendering/CLI glue not used by `policy_evaluation` and are omitted. -/

/-- `enum Action<'a> { Move(&'a State), Exit(&'a State) }` from `game.rs`. -/
inductive GAction where
  | Move (s : State)
  | Exit (s : State)
deriving DecidableEq, Repr

/-- `struct World` from `game.rs`. -/
structure GWorld where
  width : Nat
  height : Nat
  board : List Nat
  values : List ℚ
  q_values : List QRow
  min_value : ℚ
  max_value : ℚ
deriving DecidableEq, Repr

/-- `struct Game` from `game.rs` (solver-relevant fields). -/
structure Game where
  world : GWorld
  gamma : ℚ
deriving DecidableEq, Repr

/-- `World::is_valid` from `game.rs`. -/
def Game.is_valid (g : Game) (x y : Nat) : Bool :=
  match g.world.board.get? (y * g.world.width + x) with
  | some target => target == 0
  | none => false

/-- `Game::can_exit`: hard-coded exit cells (3,0) and (3,1). -/
def Game.can_exit (_g : Game) (state : State) : Bool :=
  match state with
  | ⟨3, 0⟩ => true
  | ⟨3, 1⟩ => true
  | _ => false

/-- `Game::reward`: hard-coded +1 at (3,0), -1 at (3,1) for `Exit`, else 0. -/
def Game.reward (_g : Game) (action : GAction) : ℚ :=
  match action with
  | .Move _ => 0
  | .Exit state =>
    match state with
    | ⟨3, 0⟩ => 1
    | ⟨3, 1⟩ => -1
    | _ => 0

/-- `Game::move_to` (same bump-into-wall semantics as `World::move_to`). -/
def Game.move_to (g : Game) (state : State) (direction : Direction) : State :=
  match direction with
  | .Up =>
    if state.y > 0 then
      if g.is_valid state.x (state.y - 1) then ⟨state.x, state.y - 1⟩ else state
    else state
  | .Down =>
    if state.y < g.world.height - 1 then
      if g.is_valid state.x (state.y + 1) then ⟨state.x, state.y + 1⟩ else state
    else state
  | .Left =>
    if state.x > 0 then
      if g.is_valid (state.x - 1) state.y then ⟨state.x - 1, state.y⟩ else state
    else state
  | .Right =>
    if state.x < g.world.width - 1 then
      if g.is_valid (state.x + 1) state.y then ⟨state.x + 1, state.y⟩ else state
    else state

/-- `Game::get_moves`. -/
def Game.get_moves (_g : Game) (direction : Direction) : List Direction :=
  match direction with
  | .Up | .Down => [direction, .Left, .Right]
  | .Right | .Left => [direction, .Up, .Down]

/-- The Q-row slot written for each policy direction in
`Game::policy_evaluation`: `Up -> 0, Right -> 1, Down -> 2, Left -> 3`. -/
def dirIndex : Direction → Nat
  | .Up => 0
  | .Right => 1
  | .Down => 2
  | .Left => 3

/-- The expectation value computed for one open non-exit cell in
`Game::policy_evaluation`: `0.8/0.1/0.1` over the policy direction and its
two orthogonal missteps. -/
def Game.peValue (g : Game) (policy : List Direction) (values : List ℚ)
    (index : Nat) (state : State) : ℚ :=
  let moves := g.get_moves (policy.getD index .Up)
  let target := g.move_to state (moves.getD 0 .Up)
  let misstep_a := g.move_to state (moves.getD 1 .Up)
  let misstep_b := g.move_to state (moves.getD 2 .Up)
  (0.8 : ℚ) * (g.reward (.Move target) +
      g.gamma * values.getD (target.y * g.world.width + target.x) 0) +
    (0.1 : ℚ) * (g.reward (.Move misstep_a) +
      g.gamma * values.getD (misstep_a.y * g.world.width + misstep_a.x) 0) +
    (0.1 : ℚ) * (g.reward (.Move misstep_b) +
      g.gamma * values.getD (misstep_b.y * g.world.width + misstep_b.x) 0)

/-- `Game::policy_evaluation`: one Bellman expectation sweep under the fixed
`policy`. Invalid cells are skipped (their result entry stays 0 and their
Q-row untouched); exit cells get the immediate exit reward (Q-row untouched);
every other cell gets the `0.8/0.1/0.1` expectation, which is also written
into the single Q-row slot of the policy's direction. Returns
(result, q_values after the sweep). -/
def Game.policy_evaluation (g : Game) (policy : List Direction)
    (values : List ℚ) : List ℚ × List QRow :=
  ((List.range (g.world.width * g.world.height)).map fun index =>
      let state : State := ⟨index % g.world.width, index / g.world.width⟩
      if !g.is_valid state.x state.y then 0
      else if g.can_exit state then g.reward (.Exit state)
      else g.peValue policy values index state,
   (List.range (g.world.width * g.world.height)).map fun index =>
      let state : State := ⟨index % g.world.width, index / g.world.width⟩
      if !g.is_valid state.x state.y then g.world.q_values.getD index qZero
      else if g.can_exit state then g.world.q_values.getD index qZero
      else (g.world.q_values.getD index qZero).set
        (dirIndex (policy.getD index .Up)) (g.peValue policy values index state))

/-! ### Helper notions and lemmas -/

/-- The compass opposite of a direction (not in the source; used to state
that the opposite direction never occurs as a slip outcome). -/
def opposite : Direction → Direction
  | .Up => .Down
  | .Down => .Up
  | .Left => .Right
  | .Right => .Left

/-- Spec-side wall test by coordinates: the board entry at the flat index is
not 0 (only used under in-bounds hypotheses, where the default is inert). -/
def isWall (w : World) (x y : Nat) : Bool :=
  w.board.getD (y * w.width + x) 0 != 0

theorem getD_range_map {α : Type} (f : Nat → α) (n i : Nat) (hi : i < n) (d : α) :
    ((List.range n).map f).getD i d = f i := by
  rw [List.getD_eq_getElem?_getD, List.getElem?_map, List.getElem?_range hi]
  rfl

theorem length_range_map {α : Type} (f : Nat → α) (n : Nat) :
    ((List.range n).map f).length = n := by
  simp

theorem flat_index_lt {W H x y : Nat} (hx : x < W) (hy : y < H) :
    y * W + x < W * H := by
  calc y * W + x < y * W + W := by omega
    _ = (y + 1) * W := by ring
    _ ≤ H * W := Nat.mul_le_mul_right W (by omega)
    _ = W * H := Nat.mul_comm H W

theorem flat_index_mod {W x y : Nat} (hx : x < W) : (y * W + x) % W = x := by
  rw [Nat.add_comm, Nat.add_mul_mod_self_right, Nat.mod_eq_of_lt hx]

theorem flat_index_div {W x y : Nat} (hx : x < W) : (y * W + x) / W = y := by
  rw [Nat.add_comm, Nat.add_mul_div_right _ _ (by omega : 0 < W),
    Nat.div_eq_of_lt hx]
  omega

/-! ### Claims -/

/-- Claim C1: for every state and direction `d`, `transition(state, Move(d), noise)`
returns exactly three weighted outcomes — the intended direction `d` with
probability `noise` and the two directions orthogonal to `d` each with
probability `(1-noise)/2`; the direction opposite to `d` never appears, and
the three probabilities sum to 1 (proved for every `noise`, in particular
for `noise ∈ (0,1)`). -/
theorem C1_move_transition_distribution (w : World) (s : State) (d : Direction)
    (noise : ℚ) :
    ∃ o1 o2 : Direction,
      w.transition s (.Move d) noise =
        some [(noise, .Move d), ((1 - noise) / 2, .Move o1), ((1 - noise) / 2, .Move o2)] ∧
      o1 ≠ d ∧ o1 ≠ opposite d ∧ o2 ≠ d ∧ o2 ≠ opposite d ∧ o1 ≠ o2 ∧
      (∀ pa ∈ ((w.transition s (.Move d) noise).getD []),
        pa.2 ≠ Action.Move (opposite d)) ∧
      (((w.transition s (.Move d) noise).getD []).map Prod.fst).sum = 1 := by
  cases d with
  | Up =>
    have heq : w.transition s (.Move .Up) noise =
        some [(noise, .Move .Up), ((1 - noise) / 2, .Move .Left),
          ((1 - noise) / 2, .Move .Right)] := by
      norm_num [World.transition, World.get_moves]
    refine ⟨.Left, .Right, heq, by decide, by decide, by decide, by decide, by decide,
      ?_, ?_⟩
    · rw [heq]
      intro pa hpa
      simp only [Option.getD_some, List.mem_cons, List.not_mem_nil, or_false] at hpa
      rcases hpa with rfl | rfl | rfl <;> simp [opposite]
    · rw [heq]
      simp only [Option.getD_some, List.map_cons, List.map_nil, List.sum_cons,
        List.sum_nil]
      ring
  | Down =>
    have heq : w.transition s (.Move .Down) noise =
        some [(noise, .Move .Down), ((1 - noise) / 2, .Move .Left),
          ((1 - noise) / 2, .Move .Right)] := by
      norm_num [World.transition, World.get_moves]
    refine ⟨.Left, .Right, heq, by decide, by decide, by decide, by decide, by decide,
      ?_, ?_⟩
    · rw [heq]
      intro pa hpa
      simp only [Option.getD_some, List.mem_cons, List.not_mem_nil, or_false] at hpa
      rcases hpa with rfl | rfl | rfl <;> simp [opposite]
    · rw [heq]
      simp only [Option.getD_some, List.map_cons, List.map_nil, List.sum_cons,
        List.sum_nil]
      ring
  | Left =>
    have heq : w.transition s (.Move .Left) noise =
        some [(noise, .Move .Left), ((1 - noise) / 2, .Move .Up),
          ((1 - noise) / 2, .Move .Down)] := by
      norm_num [World.transition, World.get_moves]
    refine ⟨.Up, .Down, heq, by decide, by decide, by decide, by decide, by decide,
      ?_, ?_⟩
    · rw [heq]
      intro pa hpa
      simp only [Option.getD_some, List.mem_cons, List.not_mem_nil, or_false] at hpa
      rcases hpa with rfl | rfl | rfl <;> simp [opposite]
    · rw [heq]
      simp only [Option.getD_some, List.map_cons, List.map_nil, List.sum_cons,
        List.sum_nil]
      ring
  | Right =>
    have heq : w.transition s (.Move .Right) noise =
        some [(noise, .Move .Right), ((1 - noise) / 2, .Move .Up),
          ((1 - noise) / 2, .Move .Down)] := by
      norm_num [World.transition, World.get_moves]
    refine ⟨.Up, .Down, heq, by decide, by decide, by decide, by decide, by decide,
      ?_, ?_⟩
    · rw [heq]
      intro pa hpa
      simp only [Option.getD_some, List.mem_cons, List.not_mem_nil, or_false] at hpa
      rcases hpa with rfl | rfl | rfl <;> simp [opposite]
    · rw [heq]
      simp only [Option.getD_some, List.map_cons, List.map_nil, List.sum_cons,
        List.sum_nil]
      ring

/-- Claim C6: `transition(state, Exit, noise)` returns the single outcome
`[(1.0, Exit)]` iff `can_exit` holds (otherwise no transition),
`transition(state, None, noise)` always returns no transition, and an absent
transition contributes exactly zero to the expectation sum computed by the
shared `value` function. -/
theorem C6_exit_none_transitions (w : World) (s : State) (noise discount : ℚ)
    (values : List ℚ) :
    (w.transition s .Exit noise = some [(1, .Exit)] ↔ w.can_exit s = true) ∧
    (w.can_exit s = false → w.transition s .Exit noise = none) ∧
    w.transition s .None noise = none ∧
    w.value s .None discount noise values = 0 ∧
    (∀ a, w.transition s a noise = none → w.value s a discount noise values = 0) := by
  have hexit : w.transition s .Exit noise = some [(1, .Exit)] ↔ w.can_exit s = true := by
    unfold World.transition World.can_exit
    cases h : w.exits.get? (s.y * w.width + s.x) with
    | none => simp
    | some target => cases target <;> simp
  refine ⟨hexit, ?_, rfl, rfl, ?_⟩
  · intro hfalse
    unfold World.transition
    unfold World.can_exit at hfalse
    cases h : w.exits.get? (s.y * w.width + s.x) with
    | none => simp
    | some target =>
      rw [h] at hfalse
      cases target with
      | none => simp
      | some r => simp at hfalse
  · intro a ha
    cases a with
    | None => rfl
    | Move d =>
      exfalso
      unfold World.transition at ha
      simp at ha
    | Exit =>
      unfold World.value World.reward
      unfold World.transition at ha
      cases h : w.exits.get? (s.y * w.width + s.x) with
      | none => simp [h]
      | some target =>
        rw [h] at ha
        cases target with
        | none => simp [h]
        | some r => simp at ha

/-- Witness for C6: concrete instantiation on a world with an exit at (0,0). -/
theorem C6_exit_none_transitions_witness :
    ((World.new 1 1).add_exit 0 0 3).transition ⟨0, 0⟩ .Exit (8/10) =
        some [(1, .Exit)] ∧
    (World.new 4 3).value ⟨0, 0⟩ .None (9/10) (8/10) [] = 0 :=
  ⟨(C6_exit_none_transitions ((World.new 1 1).add_exit 0 0 3) ⟨0, 0⟩ (8/10) (9/10)
      []).1.mpr (by decide),
   (C6_exit_none_transitions (World.new 4 3) ⟨0, 0⟩ (8/10) (9/10) []).2.2.2.2
      .None rfl⟩

/-- Counterexample for C9: on a 4x3 world, `(5,1)` is outside the grid extent
(`5 ≥ width`), yet `add_wall(5,1)` mutates the world (its flat index
`1*4+5 = 9` aliases the in-bounds cell `(1,2)`), and `valid_position` on the
fresh world returns `true` for `(5,1)`, not `false`. -/
theorem C9_counterexample :
    5 ≥ (World.new 4 3).width ∧
    (World.new 4 3).add_wall 5 1 ≠ World.new 4 3 ∧
    ((World.new 4 3).add_wall 5 1).board.get? (2 * 4 + 1) = some 1 ∧
    (World.new 4 3).valid_position ⟨5, 1⟩ = true := by
  decide

/-- Claim C9 (amended): `add_wall`/`add_exit` are silently ignored exactly
when the flat index `y*width+x` falls outside the backing array — in
particular whenever `y ≥ height` (given the array invariant) — and
`valid_position(state)` is true iff the flat index is inside the board and
that entry is not a wall; an out-of-bounds `(x,y)` with `x ≥ width` whose
flat index is still in range aliases an in-bounds cell instead of being
ignored (see the counterexample). -/
theorem C9_amended_oob_and_valid (w : World) (x y : Nat) (r : ℚ) :
    (w.board.length ≤ y * w.width + x → w.add_wall x y = w) ∧
    (w.exits.length ≤ y * w.width + x → w.add_exit x y r = w) ∧
    (w.valid_position ⟨x, y⟩ = true ↔ w.board.get? (y * w.width + x) = some 0) ∧
    (w.board.length = w.width * w.height → w.height ≤ y →
      w.add_wall x y = w ∧ w.valid_position ⟨x, y⟩ = false) := by
  have hwall : w.board.length ≤ y * w.width + x → w.add_wall x y = w := by
    intro h
    unfold World.add_wall
    rw [List.set_eq_of_length_le h]
  have hvalid : w.valid_position ⟨x, y⟩ = true ↔
      w.board.get? (y * w.width + x) = some 0 := by
    unfold World.valid_position
    cases h : w.board.get? (y * w.width + x) with
    | none => simp
    | some t => simp
  refine ⟨hwall, ?_, hvalid, ?_⟩
  · intro h
    unfold World.add_exit
    rw [List.set_eq_of_length_le h]
  · intro hlen hy
    have hidx : w.board.length ≤ y * w.width + x := by
      calc w.board.length = w.width * w.height := hlen
        _ = w.height * w.width := Nat.mul_comm _ _
        _ ≤ y * w.width := Nat.mul_le_mul_right _ hy
        _ ≤ y * w.width + x := Nat.le_add_right _ _
    refine ⟨hwall hidx, ?_⟩
    unfold World.valid_position
    rw [List.get?_eq_none.mpr hidx]

/-- Witness for the amended C9. -/
theorem C9_amended_oob_and_valid_witness :
    (World.new 4 3).add_wall 0 7 = World.new 4 3 ∧
    (World.new 4 3).valid_position ⟨0, 7⟩ = false :=
  (C9_amended_oob_and_valid (World.new 4 3) 0 7 0).2.2.2 (by decide) (by decide)

theorem valid_position_eq_not_isWall (w : World) (x y : Nat)
    (hw : w.board.length = w.width * w.height)
    (hx : x < w.width) (hy : y < w.height) :
    w.valid_position ⟨x, y⟩ = !(isWall w x y) := by
  have hidx : y * w.width + x < w.board.length := by
    rw [hw]; exact flat_index_lt hx hy
  unfold World.valid_position isWall
  rw [List.get?_eq_getElem?]
  rw [List.getElem?_eq_getElem hidx]
  rw [List.getD_eq_getElem?_getD, List.getElem?_eq_getElem hidx]
  cases h : w.board[y * w.width + x] == 0 <;> simp_all [bne]

/-- Claim C8: the initial policy used by policy iteration is deterministic:
`None` on invalid cells, `Exit` on (valid) exit cells, `Move(Up)` on every
other open non-exit cell. -/
theorem C8_initial_policy_deterministic (w : World) (x y : Nat)
    (hx : x < w.width) (hy : y < w.height) :
    (w.generate_random_policy).length = w.area ∧
    (w.valid_position ⟨x, y⟩ = false →
      (w.generate_random_policy).getD (y * w.width + x) .None = .None) ∧
    (w.valid_position ⟨x, y⟩ = true → w.can_exit ⟨x, y⟩ = true →
      (w.generate_random_policy).getD (y * w.width + x) .None = .Exit) ∧
    (w.valid_position ⟨x, y⟩ = true → w.can_exit ⟨x, y⟩ = false →
      (w.generate_random_policy).getD (y * w.width + x) .None = .Move .Up) := by
  have hidx : y * w.width + x < w.area := flat_index_lt hx hy
  have key : (w.generate_random_policy).getD (y * w.width + x) .None =
      (if !w.valid_position ⟨x, y⟩ then .None
       else if w.can_exit ⟨x, y⟩ then .Exit else .Move .Up) := by
    unfold World.generate_random_policy
    rw [getD_range_map _ _ _ hidx]
    simp only [flat_index_mod hx, flat_index_div hx]
  refine ⟨length_range_map _ _, ?_, ?_, ?_⟩
  · intro hv; rw [key, hv]; rfl
  · intro hv he; rw [key, hv, he]; rfl
  · intro hv he; rw [key, hv, he]; rfl

/-- Witness for C8 on the default 4x3 world with a wall at (1,1) and an
exit at (3,0). -/
theorem C8_initial_policy_deterministic_witness :
    ((((World.new 4 3).add_wall 1 1).add_exit 3 0 1).generate_random_policy).getD
      (0 * 4 + 0) .None = .Move .Up :=
  (C8_initial_policy_deterministic (((World.new 4 3).add_wall 1 1).add_exit 3 0 1)
    0 0 (by decide) (by decide)).2.2.2 (by decide) (by decide)

/-- Intended destination x-coordinate of a move, over ℤ so that stepping off
the left edge is visible as a negative coordinate. -/
def destX (d : Direction) (s : State) : ℤ :=
  match d with
  | .Left => (s.x : ℤ) - 1
  | .Right => (s.x : ℤ) + 1
  | _ => (s.x : ℤ)

/-- Intended destination y-coordinate of a move, over ℤ. -/
def destY (d : Direction) (s : State) : ℤ :=
  match d with
  | .Up => (s.y : ℤ) - 1
  | .Down => (s.y : ℤ) + 1
  | _ => (s.y : ℤ)

/-- Claim C2: for every in-bounds state `s` and direction `d`, `move_to(s,d)`
returns the neighbouring cell in direction `d` when that neighbour is in
bounds and not a wall, and otherwise (wall or off the grid boundary) returns
`s` unchanged. -/
theorem C2_move_to_bump_semantics (w : World) (s : State) (d : Direction)
    (hw : w.board.length = w.width * w.height)
    (hx : s.x < w.width) (hy : s.y < w.height) :
    (0 ≤ destX d s → destX d s < (w.width : ℤ) →
      0 ≤ destY d s → destY d s < (w.height : ℤ) →
      isWall w (destX d s).toNat (destY d s).toNat = false →
      w.move_to s d = ⟨(destX d s).toNat, (destY d s).toNat⟩) ∧
    (¬(0 ≤ destX d s ∧ destX d s < (w.width : ℤ) ∧
        0 ≤ destY d s ∧ destY d s < (w.height : ℤ) ∧
        isWall w (destX d s).toNat (destY d s).toNat = false) →
      w.move_to s d = s) := by
  cases d with
  | Up =>
    have htx : (destX .Up s).toNat = s.x := by simp [destX]
    constructor
    · intro hbx hbx' hby hby' hwall
      have h0 : 0 < s.y := by simp only [destY] at hby; omega
      have hty : (destY .Up s).toNat = s.y - 1 := by simp only [destY]; omega
      rw [htx, hty] at hwall ⊢
      have hv : w.valid_position ⟨s.x, s.y - 1⟩ = true := by
        rw [valid_position_eq_not_isWall w s.x (s.y - 1) hw hx (by omega), hwall]
        rfl
      simp [World.move_to, h0, hv]
    · intro hcon
      by_cases h0 : 0 < s.y
      · have hty : (destY .Up s).toNat = s.y - 1 := by simp only [destY]; omega
        have hwall : isWall w (destX .Up s).toNat (destY .Up s).toNat = true := by
          cases hiw : isWall w (destX .Up s).toNat (destY .Up s).toNat with
          | false =>
            exact absurd ⟨by simp [destX], by simp only [destX]; omega,
              by simp only [destY]; omega, by simp only [destY]; omega, hiw⟩ hcon
          | true => rfl
        rw [htx, hty] at hwall
        have hv : w.valid_position ⟨s.x, s.y - 1⟩ = false := by
          rw [valid_position_eq_not_isWall w s.x (s.y - 1) hw hx (by omega), hwall]
          rfl
        simp [World.move_to, h0, hv]
      · have : ¬ s.y > 0 := h0
        simp [World.move_to, this]
  | Down =>
    have htx : (destX .Down s).toNat = s.x := by simp [destX]
    have hty : (destY .Down s).toNat = s.y + 1 := by simp only [destY]; omega
    constructor
    · intro hbx hbx' hby hby' hwall
      have h0 : s.y < w.height - 1 := by simp only [destY] at hby'; omega
      rw [htx, hty] at hwall ⊢
      have hv : w.valid_position ⟨s.x, s.y + 1⟩ = true := by
        rw [valid_position_eq_not_isWall w s.x (s.y + 1) hw hx (by omega), hwall]
        rfl
      simp [World.move_to, h0, hv]
    · intro hcon
      by_cases h0 : s.y < w.height - 1
      · have hwall : isWall w (destX .Down s).toNat (destY .Down s).toNat = true := by
          cases hiw : isWall w (destX .Down s).toNat (destY .Down s).toNat with
          | false =>
            exact absurd ⟨by simp [destX], by simp only [destX]; omega,
              by simp only [destY]; omega, by simp only [destY]; omega, hiw⟩ hcon
          | true => rfl
        rw [htx, hty] at hwall
        have hv : w.valid_position ⟨s.x, s.y + 1⟩ = false := by
          rw [valid_position_eq_not_isWall w s.x (s.y + 1) hw hx (by omega), hwall]
          rfl
        simp [World.move_to, h0, hv]
      · simp [World.move_to, h0]
  | Left =>
    have hty : (destY .Left s).toNat = s.y := by simp [destY]
    constructor
    · intro hbx hbx' hby hby' hwall
      have h0 : 0 < s.x := by simp only [destX] at hbx; omega
      have htx : (destX .Left s).toNat = s.x - 1 := by simp only [destX]; omega
      rw [htx, hty] at hwall ⊢
      have hv : w.valid_position ⟨s.x - 1, s.y⟩ = true := by
        rw [valid_position_eq_not_isWall w (s.x - 1) s.y hw (by omega) hy, hwall]
        rfl
      simp [World.move_to, h0, hv]
    · intro hcon
      by_cases h0 : 0 < s.x
      · have htx : (destX .Left s).toNat = s.x - 1 := by simp only [destX]; omega
        have hwall : isWall w (destX .Left s).toNat (destY .Left s).toNat = true := by
          cases hiw : isWall w (destX .Left s).toNat (destY .Left s).toNat with
          | false =>
            exact absurd ⟨by simp only [destX]; omega, by simp only [destX]; omega,
              by simp [destY], by simp only [destY]; omega, hiw⟩ hcon
          | true => rfl
        rw [htx, hty] at hwall
        have hv : w.valid_position ⟨s.x - 1, s.y⟩ = false := by
          rw [valid_position_eq_not_isWall w (s.x - 1) s.y hw (by omega) hy, hwall]
          rfl
        simp [World.move_to, h0, hv]
      · have : ¬ s.x > 0 := h0
        simp [World.move_to, this]
  | Right =>
    have htx : (destX .Right s).toNat = s.x + 1 := by simp only [destX]; omega
    have hty : (destY .Right s).toNat = s.y := by simp [destY]
    constructor
    · intro hbx hbx' hby hby' hwall
      have h0 : s.x < w.width - 1 := by simp only [destX] at hbx'; omega
      rw [htx, hty] at hwall ⊢
      have hv : w.valid_position ⟨s.x + 1, s.y⟩ = true := by
        rw [valid_position_eq_not_isWall w (s.x + 1) s.y hw (by omega) hy, hwall]
        rfl
      simp [World.move_to, h0, hv]
    · intro hcon
      by_cases h0 : s.x < w.width - 1
      · have hwall : isWall w (destX .Right s).toNat (destY .Right s).toNat = true := by
          cases hiw : isWall w (destX .Right s).toNat (destY .Right s).toNat with
          | false =>
            exact absurd ⟨by simp only [destX]; omega, by simp only [destX]; omega,
              by simp [destY], by simp only [destY]; omega, hiw⟩ hcon
          | true => rfl
        rw [htx, hty] at hwall
        have hv : w.valid_position ⟨s.x + 1, s.y⟩ = false := by
          rw [valid_position_eq_not_isWall w (s.x + 1) s.y hw (by omega) hy, hwall]
          rfl
        simp [World.move_to, h0, hv]
      · simp [World.move_to, h0]

/-- Witness for C2: on the default 4x3 world with a wall at (1,1), moving
right from (0,0) reaches (1,0), and moving up from (0,0) bumps the boundary
and stays in place. -/
theorem C2_move_to_bump_semantics_witness :
    ((World.new 4 3).add_wall 1 1).move_to ⟨0, 0⟩ .Right = ⟨1, 0⟩ ∧
    ((World.new 4 3).add_wall 1 1).move_to ⟨0, 0⟩ .Up = ⟨0, 0⟩ :=
  ⟨(C2_move_to_bump_semantics ((World.new 4 3).add_wall 1 1) ⟨0, 0⟩ .Right
      (by decide) (by decide) (by decide)).1
      (by decide) (by decide) (by decide) (by decide) (by decide),
   (C2_move_to_bump_semantics ((World.new 4 3).add_wall 1 1) ⟨0, 0⟩ .Up
      (by decide) (by decide) (by decide)).2 (by decide)⟩

/-- Claim C7: during the fixed-policy Bellman expectation sweep
(`Game::policy_evaluation` in `game.rs`), Q-value side-effects are limited
to the policy's chosen direction per cell: an open non-exit cell's Q-row is
the old row with only the policy-direction slot overwritten (by the cell's
new state value), invalid and exit cells keep their Q-row untouched, and in
every case all slots other than the policy's direction are unchanged. -/
theorem C7_policy_evaluation_qvalue_frame (g : Game) (policy : List Direction)
    (values : List ℚ) (x y : Nat)
    (hx : x < g.world.width) (hy : y < g.world.height) :
    (g.is_valid x y = true → g.can_exit ⟨x, y⟩ = false →
      ((g.policy_evaluation policy values).2).getD (y * g.world.width + x) qZero =
        (g.world.q_values.getD (y * g.world.width + x) qZero).set
          (dirIndex (policy.getD (y * g.world.width + x) .Up))
          (((g.policy_evaluation policy values).1).getD (y * g.world.width + x) 0)) ∧
    ((g.is_valid x y = false ∨ g.can_exit ⟨x, y⟩ = true) →
      ((g.policy_evaluation policy values).2).getD (y * g.world.width + x) qZero =
        g.world.q_values.getD (y * g.world.width + x) qZero) ∧
    (∀ j, j ≠ dirIndex (policy.getD (y * g.world.width + x) .Up) →
      (((g.policy_evaluation policy values).2).getD (y * g.world.width + x) qZero).getD j 0 =
        (g.world.q_values.getD (y * g.world.width + x) qZero).getD j 0) := by
  have hidx : y * g.world.width + x < g.world.width * g.world.height :=
    flat_index_lt hx hy
  have key2 : ((g.policy_evaluation policy values).2).getD (y * g.world.width + x) qZero =
      (if !g.is_valid x y then g.world.q_values.getD (y * g.world.width + x) qZero
       else if g.can_exit ⟨x, y⟩ then g.world.q_values.getD (y * g.world.width + x) qZero
       else (g.world.q_values.getD (y * g.world.width + x) qZero).set
         (dirIndex (policy.getD (y * g.world.width + x) .Up))
         (g.peValue policy values (y * g.world.width + x) ⟨x, y⟩)) := by
    unfold Game.policy_evaluation
    rw [getD_range_map _ _ _ hidx]
    simp only [flat_index_mod hx, flat_index_div hx]
  have key1 : g.is_valid x y = true → g.can_exit ⟨x, y⟩ = false →
      ((g.policy_evaluation policy values).1).getD (y * g.world.width + x) 0 =
        g.peValue policy values (y * g.world.width + x) ⟨x, y⟩ := by
    intro hv he
    unfold Game.policy_evaluation
    rw [getD_range_map _ _ _ hidx]
    simp only [flat_index_mod hx, flat_index_div hx, hv, he]
    rfl
  refine ⟨?_, ?_, ?_⟩
  · intro hv he
    rw [key2, key1 hv he, hv, he]
    rfl
  · intro h
    rcases h with hv | he
    · rw [key2, hv]
      rfl
    · rw [key2, he]
      cases hvb : g.is_valid x y <;> rfl
  · intro j hj
    by_cases hv : g.is_valid x y = true
    · by_cases he : g.can_exit ⟨x, y⟩ = true
      · rw [key2, hv, he]
        rfl
      · have he' : g.can_exit ⟨x, y⟩ = false := by
          cases h : g.can_exit ⟨x, y⟩
          · rfl
          · exact absurd h he
        rw [key2, hv, he']
        simp only [Bool.not_true, Bool.false_eq_true, if_false, if_neg]
        generalize dirIndex (policy.getD (y * g.world.width + x) .Up) = k at hj ⊢
        simp only [List.getD_eq_getElem?_getD, List.getElem?_set_ne (Ne.symm hj)]
    · have hv' : g.is_valid x y = false := by
        cases h : g.is_valid x y
        · rfl
        · exact absurd h hv
      rw [key2, hv']
      rfl

/-- Witness for C7: on the hard-coded 4x3 game world, for the cell (0,0)
under the all-Up policy, Q-slot 2 (Down) is untouched by the sweep. -/
theorem C7_policy_evaluation_qvalue_frame_witness :
    ((((⟨⟨4, 3, List.replicate 12 0, List.replicate 12 0,
          List.replicate 12 qZero, 0, 0⟩, 9/10⟩ : Game).policy_evaluation
        (List.replicate 12 .Up) (List.replicate 12 0)).2).getD (0 * 4 + 0) qZero).getD 2 0 =
      (((⟨⟨4, 3, List.replicate 12 0, List.replicate 12 0,
          List.replicate 12 qZero, 0, 0⟩, 9/10⟩ : Game).world.q_values).getD
        (0 * 4 + 0) qZero).getD 2 0 :=
  (C7_policy_evaluation_qvalue_frame
      ⟨⟨4, 3, List.replicate 12 0, List.replicate 12 0, List.replicate 12 qZero, 0, 0⟩,
        9/10⟩
      (List.replicate 12 .Up) (List.replicate 12 0) 0 0
      (by decide) (by decide)).2.2 2 (by decide)

theorem foldStep_init_le (l : List ℚ) (a : ℚ) :
    a ≤ l.foldl (fun m d => if d > m then d else m) a := by
  induction l generalizing a with
  | nil => exact le_refl a
  | cons h t ih =>
    refine le_trans ?_ (ih (if h > a then h else a))
    split
    · exact le_of_lt (by assumption)
    · exact le_refl a

theorem foldStep_ub (l : List ℚ) (a : ℚ) :
    ∀ x ∈ l, x ≤ l.foldl (fun m d => if d > m then d else m) a := by
  induction l generalizing a with
  | nil => intro x hx; exact absurd hx (List.not_mem_nil x)
  | cons h t ih =>
    intro x hx
    rcases List.mem_cons.mp hx with rfl | hx'
    · refine le_trans ?_ (foldStep_init_le t (if x > a then x else a))
      split
      · exact le_refl x
      · exact le_of_not_lt (by assumption)
    · exact ih _ x hx'

theorem foldStep_mem_or (l : List ℚ) (a : ℚ) :
    l.foldl (fun m d => if d > m then d else m) a ∈ l ∨
      l.foldl (fun m d => if d > m then d else m) a = a := by
  induction l generalizing a with
  | nil => exact Or.inr rfl
  | cons h t ih =>
    rcases ih (if h > a then h else a) with hmem | heq
    · exact Or.inl (List.mem_cons_of_mem h hmem)
    · rw [List.foldl_cons, heq]
      split
      · exact Or.inl (List.mem_cons_self h t)
      · exact Or.inr rfl

/-- Claim C4: in both `value_iteration` and `policy_evaluation` the per-sweep
delta is the maximum over cells of the *signed* difference
`new_values[cell] - values[cell]` (folded from `f32::MIN`; witness the
concrete entry `-5` below, whose absolute-difference maximum would be `5`),
and each convergence loop breaks exactly when `abs(max_delta) < epsilon` and
the iteration count exceeds 1, otherwise recursing on the new values. -/
theorem C4_signed_delta_and_stopping_rule :
    (∀ temp old : List ℚ,
      (∃ x ∈ List.zipWith (fun a b => a - b) temp old, f32MIN ≤ x) →
      (List.zipWith (fun a b => a - b) temp old).maximum =
        (foldDelta temp old : WithBot ℚ)) ∧
    foldDelta [0] [5] = -5 ∧
    (∀ (w : World) (d n eps : ℚ) (fuel : Nat) (values : List ℚ) (q : List QRow)
        (iters : Nat) (r : List ℚ × List QRow),
      viLoop w d n eps (fuel + 1) values q iters = some r ↔
        ((|foldDelta (w.value_bellman_update d n values q).1 values| < eps ∧
            iters + 1 > 1 ∧ r = w.value_bellman_update d n values q) ∨
         (¬(|foldDelta (w.value_bellman_update d n values q).1 values| < eps ∧
            iters + 1 > 1) ∧
           viLoop w d n eps fuel (w.value_bellman_update d n values q).1
             (w.value_bellman_update d n values q).2 (iters + 1) = some r))) ∧
    (∀ (w : World) (d n eps : ℚ) (policy : List Action) (fuel : Nat)
        (result : List ℚ) (iters : Nat) (r : List ℚ),
      peLoop w d n eps policy (fuel + 1) result iters = some r ↔
        ((|foldDelta (w.policy_bellman_update d n policy result) result| < eps ∧
            iters + 1 > 1 ∧ r = w.policy_bellman_update d n policy result) ∨
         (¬(|foldDelta (w.policy_bellman_update d n policy result) result| < eps ∧
            iters + 1 > 1) ∧
           peLoop w d n eps policy fuel
             (w.policy_bellman_update d n policy result) (iters + 1) = some r))) := by
  refine ⟨?_, ?_, ?_, ?_⟩
  · intro temp old hex
    obtain ⟨x, hxmem, hxge⟩ := hex
    have hub := foldStep_ub (List.zipWith (fun a b => a - b) temp old) f32MIN
    have hmem : foldDelta temp old ∈ List.zipWith (fun a b => a - b) temp old := by
      rcases foldStep_mem_or (List.zipWith (fun a b => a - b) temp old) f32MIN with
        hm | he
      · exact hm
      · have hxle := hub x hxmem
        rw [he] at hxle
        have hxeq : x = f32MIN := le_antisymm hxle hxge
        have hfd : foldDelta temp old = f32MIN := he
        rw [hfd, ← hxeq]
        exact hxmem
    exact List.maximum_eq_coe_iff.mpr ⟨hmem, fun b hb => hub b hb⟩
  · with_unfolding_all decide
  · intro w d n eps fuel values q iters r
    by_cases h : |foldDelta (w.value_bellman_update d n values q).1 values| < eps ∧
        iters + 1 > 1
    · simp only [viLoop, if_pos h]
      constructor
      · intro hsome
        exact Or.inl ⟨h.1, h.2, (Option.some.inj hsome).symm⟩
      · rintro (⟨-, -, rfl⟩ | ⟨hc, -⟩)
        · rfl
        · exact absurd h hc
    · simp only [viLoop, if_neg h]
      constructor
      · intro hrec
        exact Or.inr ⟨h, hrec⟩
      · rintro (⟨hc1, hc2, rfl⟩ | ⟨-, hrec⟩)
        · exact absurd ⟨hc1, hc2⟩ h
        · exact hrec
  · intro w d n eps policy fuel result iters r
    by_cases h : |foldDelta (w.policy_bellman_update d n policy result) result| < eps ∧
        iters + 1 > 1
    · simp only [peLoop, if_pos h]
      constructor
      · intro hsome
        exact Or.inl ⟨h.1, h.2, (Option.some.inj hsome).symm⟩
      · rintro (⟨-, -, rfl⟩ | ⟨hc, -⟩)
        · rfl
        · exact absurd h hc
    · simp only [peLoop, if_neg h]
      constructor
      · intro hrec
        exact Or.inr ⟨h, hrec⟩
      · rintro (⟨hc1, hc2, rfl⟩ | ⟨-, hrec⟩)
        · exact absurd ⟨hc1, hc2⟩ h
        · exact hrec

/-- Witness for C4. -/
theorem C4_signed_delta_and_stopping_rule_witness :
    (List.zipWith (fun a b => a - b) [(1 : ℚ)] [0]).maximum =
      (foldDelta [1] [0] : WithBot ℚ) :=
  C4_signed_delta_and_stopping_rule.1 [1] [0]
    ⟨1, by with_unfolding_all decide, by with_unfolding_all decide⟩

/-- Claim C10: on a world of zero area the convergence loops never
terminate: the empty delta reduction leaves `max_delta` at `f32::MIN`, whose
absolute value is never below any `epsilon ≤ f32::MAX`, so neither
`value_iteration` nor `policy_evaluation` (nor `policy_iteration`, which
starts with an evaluation) ever meets its stopping test — modelled as the
fuelled loops returning `none` for every amount of fuel. -/
theorem C10_zero_area_loops_never_terminate (w : World) (d n eps : ℚ)
    (harea : w.area = 0) (heps : eps ≤ f32MAX) :
    (∀ values : List ℚ, foldDelta [] values = f32MIN) ∧
    ¬(|f32MIN| < eps) ∧
    (∀ fuel values q iters, viLoop w d n eps fuel values q iters = none) ∧
    (∀ fuel policy values iters, peLoop w d n eps policy fuel values iters = none) ∧
    (∀ fuel, w.value_iteration d n eps fuel = none) ∧
    (∀ evalFuel fuel, w.policy_iteration d n eps evalFuel fuel = none) := by
  have habs : |f32MIN| = f32MAX := by
    have h1 : f32MIN = -f32MAX := rfl
    rw [h1, abs_neg, abs_of_nonneg]
    norm_num [f32MAX]
  have hnotlt : ¬(|f32MIN| < eps) := by
    rw [habs]
    exact not_lt.mpr heps
  have hcond : ∀ iters : Nat, ¬(|(f32MIN : ℚ)| < eps ∧ iters + 1 > 1) := by
    rintro iters ⟨hlt, -⟩
    exact hnotlt hlt
  have hvbu : ∀ (d' n' : ℚ) values q,
      w.value_bellman_update d' n' values q = ([], []) := by
    intro d' n' values q
    unfold World.value_bellman_update
    rw [harea]
    rfl
  have hpbu : ∀ (d' n' : ℚ) policy values,
      w.policy_bellman_update d' n' policy values = [] := by
    intro d' n' policy values
    unfold World.policy_bellman_update
    rw [harea]
    rfl
  have hfdnil : ∀ values : List ℚ, foldDelta [] values = f32MIN := fun _ => rfl
  have hvi : ∀ fuel values q iters, viLoop w d n eps fuel values q iters = none := by
    intro fuel
    induction fuel with
    | zero => intro values q iters; rfl
    | succ fuel ih =>
      intro values q iters
      simp only [viLoop, hvbu]
      rw [hfdnil values, if_neg (hcond iters)]
      exact ih [] [] (iters + 1)
  have hpe : ∀ fuel policy values iters,
      peLoop w d n eps policy fuel values iters = none := by
    intro fuel
    induction fuel with
    | zero => intro policy values iters; rfl
    | succ fuel ih =>
      intro policy values iters
      simp only [peLoop, hpbu]
      rw [hfdnil values, if_neg (hcond iters)]
      exact ih policy [] (iters + 1)
  refine ⟨hfdnil, hnotlt, hvi, hpe, ?_, ?_⟩
  · intro fuel
    unfold World.value_iteration
    rw [hvi]
    rfl
  · intro evalFuel fuel
    cases fuel with
    | zero => rfl
    | succ fuel =>
      unfold World.policy_iteration
      simp only [piLoop]
      have hev : w.policy_evaluation d n eps (w.generate_random_policy)
          (List.replicate w.area 0) evalFuel = none := by
        unfold World.policy_evaluation
        exact hpe evalFuel _ _ 0
      rw [hev]

/-- Witness for C10: a 0x5 world with `epsilon = 1` makes `value_iteration`
diverge (no amount of fuel returns a result). -/
theorem C10_zero_area_loops_never_terminate_witness :
    (World.new 0 5).value_iteration 0 0 1 3 = none :=
  (C10_zero_area_loops_never_terminate (World.new 0 5) 0 0 1 rfl
    (by with_unfolding_all decide)).2.2.2.2.1 3

theorem can_exit_of_get? (w : World) (x y : Nat) (r : ℚ)
    (he : w.exits.get? (y * w.width + x) = some (some r)) :
    w.can_exit ⟨x, y⟩ = true := by
  unfold World.can_exit
  rw [he]
  rfl

theorem reward_of_get? (w : World) (x y : Nat) (r : ℚ)
    (he : w.exits.get? (y * w.width + x) = some (some r)) :
    w.reward ⟨x, y⟩ .Exit = r := by
  unfold World.reward
  rw [he]

theorem vbu_getD (w : World) (d n : ℚ) (values : List ℚ) (q : List QRow)
    (x y : Nat) (hx : x < w.width) (hy : y < w.height) :
    ((w.value_bellman_update d n values q).1).getD (y * w.width + x) 0 =
      (if !w.valid_position ⟨x, y⟩ then 0
       else if w.can_exit ⟨x, y⟩ then w.reward ⟨x, y⟩ .Exit
       else runMax (w.qRowFor ⟨x, y⟩ d n values)) := by
  have hidx : y * w.width + x < w.area := flat_index_lt hx hy
  unfold World.value_bellman_update
  rw [getD_range_map _ _ _ hidx]
  simp only [flat_index_mod hx, flat_index_div hx]

theorem genpol_getD (w : World) (q : List QRow) (x y : Nat)
    (hx : x < w.width) (hy : y < w.height) :
    (w.generate_policy q).getD (y * w.width + x) .None =
      (if !w.valid_position ⟨x, y⟩ then .None
       else if w.can_exit ⟨x, y⟩ then .Exit
       else .Move (DIRECTIONS.getD (argMaxIdx (q.getD (y * w.width + x) qZero)) .Up)) := by
  have hidx : y * w.width + x < w.area := flat_index_lt hx hy
  unfold World.generate_policy
  rw [getD_range_map _ _ _ hidx]
  simp only [flat_index_mod hx, flat_index_div hx]

theorem pbu_getD (w : World) (d n : ℚ) (policy : List Action) (values : List ℚ)
    (x y : Nat) (hx : x < w.width) (hy : y < w.height) :
    (w.policy_bellman_update d n policy values).getD (y * w.width + x) 0 =
      w.value ⟨x, y⟩ (policy.getD (y * w.width + x) .None) d n values := by
  have hidx : y * w.width + x < w.area := flat_index_lt hx hy
  unfold World.policy_bellman_update
  rw [getD_range_map _ _ _ hidx]
  simp only [flat_index_mod hx, flat_index_div hx]

theorem viLoop_result (w : World) (d n eps : ℚ) :
    ∀ (fuel : Nat) (values : List ℚ) (q : List QRow) (iters : Nat)
      (r : List ℚ × List QRow),
      viLoop w d n eps fuel values q iters = some r →
      ∃ v0 q0, r = w.value_bellman_update d n v0 q0 := by
  intro fuel
  induction fuel with
  | zero =>
    intro values q iters r h
    exact absurd h (by simp [viLoop])
  | succ fuel ih =>
    intro values q iters r h
    simp only [viLoop] at h
    split at h
    · exact ⟨values, q, (Option.some.inj h).symm⟩
    · exact ih _ _ _ _ h

theorem peLoop_result (w : World) (d n eps : ℚ) (policy : List Action) :
    ∀ (fuel : Nat) (values : List ℚ) (iters : Nat) (r : List ℚ),
      peLoop w d n eps policy fuel values iters = some r →
      ∃ v0, r = w.policy_bellman_update d n policy v0 := by
  intro fuel
  induction fuel with
  | zero =>
    intro values iters r h
    exact absurd h (by simp [peLoop])
  | succ fuel ih =>
    intro values iters r h
    simp only [peLoop] at h
    split at h
    · exact ⟨values, (Option.some.inj h).symm⟩
    · exact ih _ _ _ h

/-- The invariant that policy iteration maintains: walls carry `None`,
(valid) exit cells carry `Exit`. -/
def PolInv (w : World) (policy : List Action) : Prop :=
  ∀ x y, x < w.width → y < w.height →
    (w.valid_position ⟨x, y⟩ = false →
      policy.getD (y * w.width + x) .None = .None) ∧
    (w.valid_position ⟨x, y⟩ = true → w.can_exit ⟨x, y⟩ = true →
      policy.getD (y * w.width + x) .None = .Exit)

theorem grp_getD (w : World) (x y : Nat) (hx : x < w.width) (hy : y < w.height) :
    (w.generate_random_policy).getD (y * w.width + x) .None =
      (if !w.valid_position ⟨x, y⟩ then .None
       else if w.can_exit ⟨x, y⟩ then .Exit else .Move .Up) := by
  have hidx : y * w.width + x < w.area := flat_index_lt hx hy
  unfold World.generate_random_policy
  rw [getD_range_map _ _ _ hidx]
  simp only [flat_index_mod hx, flat_index_div hx]

theorem grp_inv (w : World) : PolInv w (w.generate_random_policy) := by
  intro x y hx hy
  constructor
  · intro hv
    rw [grp_getD w x y hx hy, hv]
    rfl
  · intro hv he
    rw [grp_getD w x y hx hy, hv, he]
    rfl

theorem impr_getD (w : World) (d n : ℚ) (policy : List Action) (values : List ℚ)
    (q : List QRow) (x y : Nat) (hx : x < w.width) (hy : y < w.height) :
    ((w.policy_improvement d n policy values q).1).getD (y * w.width + x) .None =
      (match policy.getD (y * w.width + x) .None with
       | .Move _ =>
         Action.Move (DIRECTIONS.getD
           (argMaxIdx (w.qRowFor ⟨x, y⟩ d n values)) .Up)
       | other => other) := by
  have hidx : y * w.width + x < w.area := flat_index_lt hx hy
  simp only [World.policy_improvement]
  rw [getD_range_map _ _ _ hidx]
  simp only [flat_index_mod hx, flat_index_div hx]

theorem impr_inv (w : World) (d n : ℚ) (policy : List Action) (values : List ℚ)
    (q : List QRow) (h : PolInv w policy) :
    PolInv w (w.policy_improvement d n policy values q).1 := by
  intro x y hx hy
  constructor
  · intro hv
    rw [impr_getD w d n policy values q x y hx hy, (h x y hx hy).1 hv]
  · intro hv he
    rw [impr_getD w d n policy values q x y hx hy, (h x y hx hy).2 hv he]

theorem piLoop_result (w : World) (d n eps : ℚ) (evalFuel : Nat) :
    ∀ (fuel : Nat) (policy : List Action) (values : List ℚ) (q : List QRow)
      (polF : List Action) (valsF : List ℚ) (qF : List QRow),
      piLoop w d n eps evalFuel fuel policy values q = some (polF, valsF, qF) →
      PolInv w policy →
      PolInv w polF ∧
        ∃ pol0 v0, PolInv w pol0 ∧ valsF = w.policy_bellman_update d n pol0 v0 := by
  intro fuel
  induction fuel with
  | zero =>
    intro policy values q polF valsF qF h hinv
    exact absurd h (by simp [piLoop])
  | succ fuel ih =>
    intro policy values q polF valsF qF h hinv
    cases hev : w.policy_evaluation d n eps policy values evalFuel with
    | none => simp [piLoop, hev] at h
    | some values' =>
      simp only [piLoop, hev] at h
      split at h
      · have hinj := Option.some.inj h
        injection hinj with h1 h23
        injection h23 with h2 h3
        subst h1 h2
        obtain ⟨v0, hv0⟩ := peLoop_result w d n eps policy evalFuel values 0 values' hev
        exact ⟨impr_inv w d n policy values' q hinv, policy, v0, hinv, hv0⟩
      · exact ih _ _ _ _ _ _ h (impr_inv w d n policy values' q hinv)

/-- Claim C3: for both value iteration and policy iteration, every wall
(invalid) cell ends with value 0 and policy `None`, and every exit cell ends
with value exactly its stored exit reward (no discount applied) and policy
`Exit` — stated for every terminating run of either solver. -/
theorem C3_walls_and_exits_final (w : World) (d n eps : ℚ) (x y : Nat)
    (hx : x < w.width) (hy : y < w.height) :
    (∀ fuel pol vals q, w.value_iteration d n eps fuel = some (pol, vals, q) →
      (w.valid_position ⟨x, y⟩ = false →
        vals.getD (y * w.width + x) 0 = 0 ∧
        pol.getD (y * w.width + x) .None = .None) ∧
      (∀ r : ℚ, w.valid_position ⟨x, y⟩ = true →
        w.exits.get? (y * w.width + x) = some (some r) →
        vals.getD (y * w.width + x) 0 = r ∧
        pol.getD (y * w.width + x) .None = .Exit)) ∧
    (∀ evalFuel fuel pol vals q,
      w.policy_iteration d n eps evalFuel fuel = some (pol, vals, q) →
      (w.valid_position ⟨x, y⟩ = false →
        vals.getD (y * w.width + x) 0 = 0 ∧
        pol.getD (y * w.width + x) .None = .None) ∧
      (∀ r : ℚ, w.valid_position ⟨x, y⟩ = true →
        w.exits.get? (y * w.width + x) = some (some r) →
        vals.getD (y * w.width + x) 0 = r ∧
        pol.getD (y * w.width + x) .None = .Exit)) := by
  constructor
  · intro fuel pol vals q h
    unfold World.value_iteration at h
    rw [Option.map_eq_some'] at h
    obtain ⟨tq, htq, heq⟩ := h
    injection heq with h1 h23
    injection h23 with h2 h3
    subst h1 h2
    obtain ⟨v0, q0, htq'⟩ := viLoop_result w d n eps fuel _ _ 0 tq htq
    constructor
    · intro hv
      constructor
      · rw [htq', vbu_getD w d n v0 q0 x y hx hy, hv]
        rfl
      · rw [genpol_getD w tq.2 x y hx hy, hv]
        rfl
    · intro r hv he
      constructor
      · rw [htq', vbu_getD w d n v0 q0 x y hx hy, hv,
          can_exit_of_get? w x y r he]
        simp [reward_of_get? w x y r he]
      · rw [genpol_getD w tq.2 x y hx hy, hv, can_exit_of_get? w x y r he]
        rfl
  · intro evalFuel fuel pol vals q h
    unfold World.policy_iteration at h
    obtain ⟨hinvF, pol0, v0, hinv0, hvals⟩ :=
      piLoop_result w d n eps evalFuel fuel _ _ _ pol vals q h (grp_inv w)
    constructor
    · intro hv
      refine ⟨?_, (hinvF x y hx hy).1 hv⟩
      rw [hvals, pbu_getD w d n pol0 v0 x y hx hy, (hinv0 x y hx hy).1 hv]
      rfl
    · intro r hv he
      refine ⟨?_, (hinvF x y hx hy).2 hv (can_exit_of_get? w x y r he)⟩
      rw [hvals, pbu_getD w d n pol0 v0 x y hx hy,
        (hinv0 x y hx hy).2 hv (can_exit_of_get? w x y r he)]
      exact reward_of_get? w x y r he

/-- Witness for C3: a 2x1 world with a wall at (0,0) and an exit of reward 5
at (1,0); value iteration with `epsilon = 6` converges in 2 sweeps and the
exit cell ends with value 5 and policy `Exit`. -/
theorem C3_walls_and_exits_final_witness :
    [(0 : ℚ), 5].getD (0 * 2 + 1) 0 = 5 ∧
    [Action.None, Action.Exit].getD (0 * 2 + 1) .None = .Exit :=
  ((C3_walls_and_exits_final (((World.new 2 1).add_wall 0 0).add_exit 1 0 5)
      0 0 6 1 0 (by decide) (by decide)).1 2
      [Action.None, Action.Exit] [0, 5] [qZero, qZero]
      (by with_unfolding_all decide)).2 5 (by decide) (by decide)

end GridWorld

